import Mathlib

/-!
Shallow embedding of the `metadata` package (Go) of operator-toolkit:
utilities for reading, adding and copying key/value metadata (labels and
annotations) on Kubernetes objects.

Go maps `map[string]string` are embedded as association lists with unique
keys (`GoMap`): `mapSet` overwrites a binding in place or appends a new one,
`mapLookup` finds the first binding, so on lists with unique keys the two
behave exactly like a Go map.  A possibly-nil map is `Option GoMap`, a
possibly-nil `v1.Object` is `Option ObjectData`.  Go iteration order over a
map is unspecified; the embedding iterates the list in order, and the
theorems speak about the resulting map contents (lookups, lengths), which
are order-independent for the operations at hand.  Errors are
`Option String` (the Go `error`, with its message); a Go runtime fault
(method call on a nil interface) is the outer `none` of an
`Option`-returning function.
-/

/-- A Go `map[string]string`, embedded as an association list. -/
abbrev GoMap := List (String × String)

/-- Embeds the Go map read `m[k]`: the value bound to `k`, if any. -/
def mapLookup (m : GoMap) (k : String) : Option String :=
  match m with
  | [] => none
  | (k', v) :: rest => if k' = k then some v else mapLookup rest k

/-- Embeds the Go map write `m[k] = v`: overwrite the binding of `k` in
place, or append a fresh one. -/
def mapSet (m : GoMap) (k v : String) : GoMap :=
  match m with
  | [] => [(k, v)]
  | (k', v') :: rest => if k' = k then (k', v) :: rest else (k', v') :: mapSet rest k v

/-- The keys of the association list are pairwise distinct: every `GoMap`
that denotes an actual Go map satisfies this. -/
def KeysNodup (m : GoMap) : Prop := (m.map Prod.fst).Nodup

/-- Embeds Go `len` applied to a possibly-nil map (`len nil = 0`). -/
def goLen (m : Option GoMap) : Nat := (m.getD []).length

/-- Embeds Go `strings.HasPrefix s p`. -/
def goHasPrefix (s p : String) : Bool := p.data.isPrefixOf s.data

/-- Replace the first occurrence of `old` in `s` by `new` (on character
lists); `s` unchanged when `old` does not occur; when `old` is empty,
`new` is inserted at the front. -/
def replFirst (s old new : List Char) : List Char :=
  if old.isPrefixOf s then new ++ s.drop old.length
  else
    match s with
    | [] => []
    | c :: rest => c :: replFirst rest old new

/-- Embeds Go `strings.Replace s old new 1`. -/
def goReplace1 (s old new : String) : String := ⟨replFirst s.data old.data new.data⟩

/-- A `v1.Object` as this package sees it: two lazily created map slots. -/
structure ObjectData where
  annotations : Option GoMap
  labels : Option GoMap
  deriving DecidableEq

/-- Embeds `safeCopy`: copy `key`/`val` into `destination` only when `key`
is not already present. -/
def safeCopy (destination : GoMap) (key val : String) : GoMap :=
  if (mapLookup destination key).isSome then destination else mapSet destination key val

/-- Embeds `addEntries`: fold `safeCopy` of every source pair into the
destination map. -/
def addEntries (source destination : GoMap) : GoMap :=
  source.foldl (fun dst e => safeCopy dst e.1 e.2) destination

/-- The loop body of `filterByPrefix`: copy the pair into the accumulator
when its key starts with `p`. -/
def filterStep (p : String) (dst : GoMap) (e : String × String) : GoMap :=
  if goHasPrefix e.1 p then mapSet dst e.1 e.2 else dst

/-- The loop of `filterByPrefix` over a non-empty p, started from the
fresh empty map. -/
def filterFold (l : GoMap) (p : String) : GoMap := l.foldl (filterStep p) []

/-- Embeds `filterByPrefix`: with an empty p the (possibly nil) source map
itself is returned; otherwise a fresh map of the pairs whose key starts
with `p`. -/
def filterByPrefix (entries : Option GoMap) (p : String) : Option GoMap :=
  if p.length = 0 then entries
  else some (filterFold (entries.getD []) p)

/-- The `newKey` computation of `copyWithNewPrefix`: replace the first
occurrence of `p` by `rp` when the two differ, else keep the key. -/
def renameKey (p rp key : String) : String :=
  if p ≠ rp then goReplace1 key p rp else key

/-- The loop body of `copyWithNewPrefix`: when the key starts with `p`,
write the value under the renamed key, overwriting. -/
def copyStep (p rp : String) (d : GoMap) (e : String × String) : GoMap :=
  if goHasPrefix e.1 p then mapSet d (renameKey p rp e.1) e.2 else d

/-- Embeds `copyWithNewPrefix`: for every source pair whose key starts with
`p`, write its value into `dest` under the key with the first occurrence of
`p` replaced by `rp` (the key itself when `p = rp`), overwriting. -/
def copyWithNewPrefix (src dest : GoMap) (p rp : String) : GoMap :=
  src.foldl (copyStep p rp) dest

/-- Embeds `GetAnnotationsWithPrefix`: nil object gives an empty map and
the nil-object error; otherwise the filtered annotations and no error. -/
def GetAnnotationsWithPrefix (obj : Option ObjectData) (p : String) :
    Option GoMap × Option String :=
  match obj with
  | none => (some [], some "object cannot be nil")
  | some o => (filterByPrefix o.annotations p, none)

/-- Embeds `GetLabelsWithPrefix`. -/
def GetLabelsWithPrefix (obj : Option ObjectData) (p : String) :
    Option GoMap × Option String :=
  match obj with
  | none => (some [], some "object cannot be nil")
  | some o => (filterByPrefix o.labels p, none)

/-- Embeds `HasAnnotation` (renamed: `HasAnnotationKey`): true unless the
prefix query errs or returns an empty map. -/
def HasAnnotationKey (object : Option ObjectData) (key : String) : Bool :=
  let r := GetAnnotationsWithPrefix object key
  if r.2.isSome ∨ goLen r.1 = 0 then false else true

/-- Embeds `HasAnnotationWithValue`: some entry of the prefix query has
value `value`; false on error. -/
def HasAnnotationWithValue (object : Option ObjectData) (key value : String) : Bool :=
  let r := GetAnnotationsWithPrefix object key
  match r.2 with
  | none => (r.1.getD []).any (fun e => e.2 == value)
  | some _ => false

/-- Embeds `HasLabel`. -/
def HasLabel (object : Option ObjectData) (key : String) : Bool :=
  let r := GetLabelsWithPrefix object key
  if r.2.isSome ∨ goLen r.1 = 0 then false else true

/-- Embeds `HasLabelWithValue`. -/
def HasLabelWithValue (object : Option ObjectData) (key value : String) : Bool :=
  let r := GetLabelsWithPrefix object key
  match r.2 with
  | none => (r.1.getD []).any (fun e => e.2 == value)
  | some _ => false

/-- Embeds `AddAnnotations`: error on a nil object; otherwise initialize a
nil annotations slot to an empty map and merge `entries` into it with
`addEntries`.  Returns the updated object and the error. -/
def AddAnnotations (obj : Option ObjectData) (entries : GoMap) :
    Option ObjectData × Option String :=
  match obj with
  | none => (none, some "object cannot be nil")
  | some o =>
    let o1 := if o.annotations.isNone then { o with annotations := some [] } else o
    (some { o1 with annotations := some (addEntries entries (o1.annotations.getD [])) }, none)

/-- Embeds `AddLabels`. -/
def AddLabels (obj : Option ObjectData) (entries : GoMap) :
    Option ObjectData × Option String :=
  match obj with
  | none => (none, some "object cannot be nil")
  | some o =>
    let o1 := if o.labels.isNone then { o with labels := some [] } else o
    (some { o1 with labels := some (addEntries entries (o1.labels.getD [])) }, none)

/-- Embeds `AddAnnotation` (renamed: `AddAnnotationKV`): wrap the single
pair in a map and call `AddAnnotations`, discarding the error. -/
def AddAnnotationKV (object : Option ObjectData) (key value : String) : Option ObjectData :=
  (AddAnnotations object (mapSet [] key value)).1

/-- Embeds `AddLabel`: wrap the single pair in a map and call `AddLabels`,
discarding the error. -/
def AddLabel (object : Option ObjectData) (key value : String) : Option ObjectData :=
  (AddLabels object (mapSet [] key value)).1

/-- Embeds `CopyLabelsByPrefix`.  The function calls `src.GetLabels()`
(and possibly `dest.GetLabels()`) without a nil check, so a nil interface
argument faults at runtime: that fault is the outer `none`.  On completion
the (possibly updated) destination object is returned. -/
def CopyLabelsByPrefix (src dest : Option ObjectData) (p rp : String) :
    Option (Option ObjectData) :=
  match src with
  | none => none
  | some s =>
    match s.labels with
    | none => some dest
    | some srcLabels =>
      match dest with
      | none => none
      | some d =>
        let d1 := if d.labels.isNone then { d with labels := some [] } else d
        let newLabels := some (copyWithNewPrefix srcLabels (d1.labels.getD []) p rp)
        some (some { d1 with labels := newLabels })

/-- Embeds `CopyAnnotationsByPrefix`; same shape as `CopyLabelsByPrefix`. -/
def CopyAnnotationsByPrefix (src dest : Option ObjectData) (p rp : String) :
    Option (Option ObjectData) :=
  match src with
  | none => none
  | some s =>
    match s.annotations with
    | none => some dest
    | some srcAnns =>
      match dest with
      | none => none
      | some d =>
        let d1 := if d.annotations.isNone then { d with annotations := some [] } else d
        let newAnns := some (copyWithNewPrefix srcAnns (d1.annotations.getD []) p rp)
        some (some { d1 with annotations := newAnns })

/-- The annotations slot of a possibly-nil object, read as a plain map
(nil object and nil slot both read as the empty map). -/
def annsOf (obj : Option ObjectData) : GoMap :=
  ((obj.getD ⟨none, none⟩).annotations).getD []

/-- The labels slot of a possibly-nil object, read as a plain map. -/
def labsOf (obj : Option ObjectData) : GoMap :=
  ((obj.getD ⟨none, none⟩).labels).getD []

/-! ### Basic facts about `mapLookup` and `mapSet` -/

theorem mapLookup_set_self (m : GoMap) (k v : String) :
    mapLookup (mapSet m k v) k = some v := by
  induction m with
  | nil => simp [mapSet, mapLookup]
  | cons e rest ih =>
    obtain ⟨k', v'⟩ := e
    by_cases h : k' = k
    · simp [mapSet, h, mapLookup]
    · simp [mapSet, h, mapLookup, ih]

theorem mapLookup_set_ne (m : GoMap) (k v k' : String) (h : k' ≠ k) :
    mapLookup (mapSet m k v) k' = mapLookup m k' := by
  induction m with
  | nil => simp [mapSet, mapLookup, Ne.symm h]
  | cons e rest ih =>
    obtain ⟨k₀, v₀⟩ := e
    by_cases hk : k₀ = k
    · subst hk
      simp [mapSet, mapLookup, Ne.symm h]
    · simp [mapSet, hk, mapLookup, ih]

theorem mapSet_ne_nil (m : GoMap) (k v : String) : mapSet m k v ≠ [] := by
  cases m with
  | nil => simp [mapSet]
  | cons e rest =>
    obtain ⟨k₀, v₀⟩ := e
    by_cases hk : k₀ = k <;> simp [mapSet, hk]

theorem mapSet_length_of_isSome (m : GoMap) (k v : String)
    (h : (mapLookup m k).isSome) : (mapSet m k v).length = m.length := by
  induction m with
  | nil => simp [mapLookup] at h
  | cons e rest ih =>
    obtain ⟨k₀, v₀⟩ := e
    by_cases hk : k₀ = k
    · simp [mapSet, hk]
    · simp [mapLookup, hk] at h
      simp [mapSet, hk, ih h]

theorem mapSet_append_of_none (m : GoMap) (k v : String)
    (h : mapLookup m k = none) : mapSet m k v = m ++ [(k, v)] := by
  induction m with
  | nil => simp [mapSet]
  | cons e rest ih =>
    obtain ⟨k₀, v₀⟩ := e
    by_cases hk : k₀ = k
    · simp [mapLookup, hk] at h
    · simp [mapLookup, hk] at h
      simp [mapSet, hk, ih h]

theorem mapSet_length_of_none (m : GoMap) (k v : String)
    (h : mapLookup m k = none) : (mapSet m k v).length = m.length + 1 := by
  simp [mapSet_append_of_none m k v h]

theorem mapLookup_isSome_set (m : GoMap) (k v k' : String)
    (h : (mapLookup m k').isSome) : (mapLookup (mapSet m k v) k').isSome := by
  by_cases hk : k' = k
  · subst hk; simp [mapLookup_set_self]
  · rwa [mapLookup_set_ne m k v k' hk]

theorem mapLookup_mem (m : GoMap) (k v : String) (h : mapLookup m k = some v) :
    (k, v) ∈ m := by
  induction m with
  | nil => simp [mapLookup] at h
  | cons e rest ih =>
    obtain ⟨k₀, v₀⟩ := e
    by_cases hk : k₀ = k
    · subst hk
      simp [mapLookup] at h
      simp [h]
    · simp [mapLookup, hk] at h
      simp [ih h]

theorem mapLookup_isSome_iff_mem_keys (m : GoMap) (k : String) :
    (mapLookup m k).isSome ↔ k ∈ m.map Prod.fst := by
  induction m with
  | nil => simp [mapLookup]
  | cons e rest ih =>
    obtain ⟨k₀, v₀⟩ := e
    by_cases hk : k₀ = k
    · subst hk; simp [mapLookup]
    · simp [mapLookup, hk, ih, Ne.symm hk]

theorem keysNodup_cons (k₀ v₀ : String) (rest : GoMap) (hn : KeysNodup ((k₀, v₀) :: rest)) :
    k₀ ∉ rest.map Prod.fst ∧ KeysNodup rest := by
  simp only [KeysNodup, List.map_cons] at hn
  exact List.nodup_cons.mp hn

theorem mapLookup_eq_some_of_mem (m : GoMap) (k v : String)
    (hn : KeysNodup m) (h : (k, v) ∈ m) : mapLookup m k = some v := by
  induction m with
  | nil => simp at h
  | cons e rest ih =>
    obtain ⟨k₀, v₀⟩ := e
    obtain ⟨hn1, hn2⟩ := keysNodup_cons k₀ v₀ rest hn
    rcases List.mem_cons.mp h with h | h
    · obtain ⟨rfl, rfl⟩ := Prod.mk.injEq .. ▸ h
      simp [mapLookup]
    · have hk : k₀ ≠ k := by
        rintro rfl
        exact hn1 (List.mem_map_of_mem Prod.fst h)
      simp [mapLookup, hk]
      exact ih hn2 h

theorem mem_keys_set (m : GoMap) (k v k' : String) :
    k' ∈ (mapSet m k v).map Prod.fst ↔ k' = k ∨ k' ∈ m.map Prod.fst := by
  by_cases hk : k' = k
  · subst hk
    constructor
    · intro _; exact Or.inl rfl
    · intro _
      rw [← mapLookup_isSome_iff_mem_keys, mapLookup_set_self]
      rfl
  · rw [← mapLookup_isSome_iff_mem_keys, mapLookup_set_ne m k v k' hk,
      mapLookup_isSome_iff_mem_keys]
    simp [hk]

theorem keysNodup_set (m : GoMap) (k v : String) (hn : KeysNodup m) :
    KeysNodup (mapSet m k v) := by
  induction m with
  | nil => simp [mapSet, KeysNodup]
  | cons e rest ih =>
    obtain ⟨k₀, v₀⟩ := e
    obtain ⟨hn1, hn2⟩ := keysNodup_cons k₀ v₀ rest hn
    by_cases hk : k₀ = k
    · subst hk
      simp only [mapSet, if_pos rfl]
      exact hn
    · simp only [mapSet, if_neg hk, KeysNodup, List.map_cons, List.nodup_cons]
      refine ⟨?_, ih hn2⟩
      intro hmem
      rcases (mem_keys_set rest k v k₀).mp hmem with h | h
      · exact hk h
      · exact hn1 h

theorem keysNodup_safeCopy (d : GoMap) (k v : String) (hn : KeysNodup d) :
    KeysNodup (safeCopy d k v) := by
  unfold safeCopy
  by_cases hs : (mapLookup d k).isSome
  · rwa [if_pos hs]
  · rw [if_neg hs]
    exact keysNodup_set d k v hn

/-! ### Facts about `safeCopy` and `addEntries` -/

theorem safeCopy_lookup_self (d : GoMap) (k v : String) :
    mapLookup (safeCopy d k v) k = (mapLookup d k).or (some v) := by
  unfold safeCopy
  cases h : mapLookup d k with
  | none => simp [h, mapLookup_set_self]
  | some w => simp [h]

theorem safeCopy_lookup_ne (d : GoMap) (k v k' : String) (h : k' ≠ k) :
    mapLookup (safeCopy d k v) k' = mapLookup d k' := by
  unfold safeCopy
  by_cases hs : (mapLookup d k).isSome
  · simp [hs]
  · simp [hs, mapLookup_set_ne d k v k' h]

theorem safeCopy_length (d : GoMap) (k v : String) :
    (safeCopy d k v).length = d.length + (if (mapLookup d k).isSome then 0 else 1) := by
  unfold safeCopy
  cases h : mapLookup d k with
  | none => simp [h, mapSet_length_of_none d k v h]
  | some w => simp [h]

theorem addEntries_cons (e : String × String) (rest destination : GoMap) :
    addEntries (e :: rest) destination = addEntries rest (safeCopy destination e.1 e.2) := rfl

theorem addEntries_lookup (source : GoMap) (k : String) :
    ∀ destination : GoMap,
      mapLookup (addEntries source destination) k =
        (mapLookup destination k).or (mapLookup source k) := by
  induction source with
  | nil => intro destination; simp [addEntries, mapLookup]
  | cons e rest ih =>
    intro destination
    obtain ⟨k₀, v₀⟩ := e
    rw [addEntries_cons, ih]
    by_cases hk : k = k₀
    · subst hk
      rw [safeCopy_lookup_self]
      cases hd : mapLookup destination k <;> simp [mapLookup, Option.or]
    · rw [safeCopy_lookup_ne destination k₀ v₀ k hk]
      simp [mapLookup, Ne.symm hk]

theorem keysNodup_addEntries (source : GoMap) :
    ∀ destination : GoMap, KeysNodup destination →
      KeysNodup (addEntries source destination) := by
  induction source with
  | nil => intro destination h; exact h
  | cons e rest ih =>
    intro destination h
    rw [addEntries_cons]
    exact ih _ (keysNodup_safeCopy destination e.1 e.2 h)

theorem addEntries_length (source : GoMap) :
    ∀ destination : GoMap, KeysNodup source →
      (addEntries source destination).length =
        destination.length +
          (source.filter (fun e => (mapLookup destination e.1).isNone)).length := by
  induction source with
  | nil => intro destination _; simp [addEntries]
  | cons e rest ih =>
    intro destination hs
    obtain ⟨k₀, v₀⟩ := e
    obtain ⟨hn1, hn2⟩ := keysNodup_cons k₀ v₀ rest hs
    rw [addEntries_cons, ih (safeCopy destination k₀ v₀) hn2]
    have hfilter : rest.filter (fun e => (mapLookup (safeCopy destination k₀ v₀) e.1).isNone)
        = rest.filter (fun e => (mapLookup destination e.1).isNone) := by
      apply List.filter_congr
      intro e he
      have hne : e.1 ≠ k₀ := by
        intro heq
        exact hn1 (heq ▸ List.mem_map_of_mem Prod.fst he)
      rw [safeCopy_lookup_ne destination k₀ v₀ e.1 hne]
    rw [hfilter, safeCopy_length]
    cases hd : mapLookup destination k₀ with
    | none =>
      simp [List.filter_cons, hd]
      try omega
    | some w =>
      simp [List.filter_cons, hd]
      try omega

/-! ### Facts about `filterFold` and `filterByPrefix` -/

theorem mapLookup_append (d d' : GoMap) (k : String) :
    mapLookup (d ++ d') k = (mapLookup d k).or (mapLookup d' k) := by
  induction d with
  | nil => simp [mapLookup]
  | cons e rest ih =>
    obtain ⟨k₀, v₀⟩ := e
    by_cases hk : k₀ = k
    · simp [mapLookup, hk]
    · simp [mapLookup, hk, ih]

theorem filterFoldAux_eq_nil (p : String) (l : GoMap) :
    ∀ d : GoMap,
      (l.foldl (filterStep p) d = []) ↔
        (d = [] ∧ ∀ e ∈ l, goHasPrefix e.1 p = false) := by
  induction l with
  | nil => intro d; simp
  | cons e rest ih =>
    intro d
    rw [List.foldl_cons, ih]
    unfold filterStep
    by_cases hp : goHasPrefix e.1 p
    · simp [hp, mapSet_ne_nil]
    · simp only [if_neg hp, List.mem_cons]
      constructor
      · rintro ⟨h1, h2⟩
        refine ⟨h1, ?_⟩
        intro e' he'
        rcases he' with he' | he'
        · subst he'
          simpa using hp
        · exact h2 e' he'
      · rintro ⟨h1, h2⟩
        exact ⟨h1, fun e' he' => h2 e' (Or.inr he')⟩

theorem filterFold_eq_nil_iff (l : GoMap) (p : String) :
    filterFold l p = [] ↔ ∀ e ∈ l, goHasPrefix e.1 p = false := by
  unfold filterFold
  rw [filterFoldAux_eq_nil]
  simp

theorem filterFoldAux_eq_append (p : String) (l : GoMap) :
    ∀ d : GoMap, (∀ e ∈ l, mapLookup d e.1 = none) → KeysNodup l →
      l.foldl (filterStep p) d = d ++ l.filter (fun e => goHasPrefix e.1 p) := by
  induction l with
  | nil => intro d _ _; simp
  | cons e rest ih =>
    intro d hd hn
    obtain ⟨k₀, v₀⟩ := e
    obtain ⟨hn1, hn2⟩ := keysNodup_cons k₀ v₀ rest hn
    rw [List.foldl_cons]
    by_cases hp : goHasPrefix (k₀, v₀).1 p
    · have hset : filterStep p d (k₀, v₀) = d ++ [(k₀, v₀)] := by
        unfold filterStep
        rw [if_pos hp, mapSet_append_of_none d k₀ v₀ (hd (k₀, v₀) (by simp))]
      rw [hset, ih (d ++ [(k₀, v₀)]) ?_ hn2]
      · simp [List.filter_cons, hp]
      · intro e' he'
        rw [mapLookup_append]
        have h1 : mapLookup d e'.1 = none := hd e' (List.mem_cons_of_mem _ he')
        have h2 : e'.1 ≠ k₀ := by
          intro heq
          exact hn1 (heq ▸ List.mem_map_of_mem Prod.fst he')
        simp [h1, mapLookup, Ne.symm h2]
    · have hset : filterStep p d (k₀, v₀) = d := by
        unfold filterStep
        rw [if_neg hp]
      rw [hset, ih d (fun e' he' => hd e' (List.mem_cons_of_mem _ he')) hn2]
      simp [List.filter_cons, hp]

theorem filterFold_eq_filter (l : GoMap) (p : String) (hn : KeysNodup l) :
    filterFold l p = l.filter (fun e => goHasPrefix e.1 p) := by
  have h := filterFoldAux_eq_append p l [] (fun e _ => rfl) hn
  simpa [filterFold] using h

theorem mapLookup_filter (l : GoMap) (p k : String) :
    mapLookup (l.filter (fun e => goHasPrefix e.1 p)) k =
      if goHasPrefix k p then mapLookup l k else none := by
  induction l with
  | nil => simp [mapLookup]
  | cons e rest ih =>
    obtain ⟨k₀, v₀⟩ := e
    by_cases hk : k₀ = k
    · subst hk
      by_cases hp : goHasPrefix k₀ p
      · simp [List.filter_cons, hp, mapLookup, ih]
      · simp [List.filter_cons, hp, mapLookup, ih]
    · by_cases hp : goHasPrefix k₀ p <;>
        simp [List.filter_cons, hp, mapLookup, hk, ih]

/-! ### Facts about `goReplace1`, `renameKey` and `copyWithNewPrefix` -/

theorem isPrefixOf_iff_append (l₁ : List Char) :
    ∀ l₂ : List Char, l₁.isPrefixOf l₂ = true ↔ ∃ t, l₂ = l₁ ++ t := by
  induction l₁ with
  | nil =>
    intro l₂
    simp [List.isPrefixOf]
  | cons a as ih =>
    intro l₂
    cases l₂ with
    | nil => simp [List.isPrefixOf]
    | cons b bs =>
      simp only [List.isPrefixOf, Bool.and_eq_true, beq_iff_eq, ih, List.cons_append,
        List.cons.injEq]
      constructor
      · rintro ⟨rfl, t, rfl⟩
        exact ⟨t, rfl, rfl⟩
      · rintro ⟨t, rfl, rfl⟩
        exact ⟨rfl, t, rfl⟩

theorem replFirst_of_isPrefixOf (s old new : List Char) (h : old.isPrefixOf s) :
    replFirst s old new = new ++ s.drop old.length := by
  unfold replFirst
  rw [if_pos h]

theorem goReplace1_data_of_hasPrefix (k p rp : String) (h : goHasPrefix k p = true) :
    (goReplace1 k p rp).data = rp.data ++ k.data.drop p.data.length := by
  unfold goHasPrefix at h
  unfold goReplace1
  exact replFirst_of_isPrefixOf k.data p.data rp.data h

theorem renameKey_data (p rp k : String) (h : goHasPrefix k p = true) :
    (renameKey p rp k).data = rp.data ++ k.data.drop p.data.length := by
  unfold renameKey
  by_cases hpr : p = rp
  · subst hpr
    rw [if_neg (by simp)]
    obtain ⟨t, ht⟩ := (isPrefixOf_iff_append p.data k.data).mp h
    rw [ht, List.drop_left]
  · rw [if_pos hpr]
    exact goReplace1_data_of_hasPrefix k p rp h

theorem renameKey_inj (p rp k₁ k₂ : String) (h₁ : goHasPrefix k₁ p = true)
    (h₂ : goHasPrefix k₂ p = true) (heq : renameKey p rp k₁ = renameKey p rp k₂) :
    k₁ = k₂ := by
  have hd : (renameKey p rp k₁).data = (renameKey p rp k₂).data := by rw [heq]
  rw [renameKey_data p rp k₁ h₁, renameKey_data p rp k₂ h₂] at hd
  have hdrop := List.append_cancel_left hd
  obtain ⟨t₁, ht₁⟩ := (isPrefixOf_iff_append p.data k₁.data).mp h₁
  obtain ⟨t₂, ht₂⟩ := (isPrefixOf_iff_append p.data k₂.data).mp h₂
  rw [ht₁, ht₂, List.drop_left, List.drop_left] at hdrop
  apply String.ext
  rw [ht₁, ht₂, hdrop]

theorem copyWithNewPrefix_cons (e : String × String) (rest dest : GoMap) (p rp : String) :
    copyWithNewPrefix (e :: rest) dest p rp =
      copyWithNewPrefix rest (copyStep p rp dest e) p rp := rfl

theorem copyWithNewPrefix_lookup_of_ne (src : GoMap) (p rp K : String) :
    ∀ dest : GoMap,
      (∀ e ∈ src, goHasPrefix e.1 p = true → renameKey p rp e.1 ≠ K) →
      mapLookup (copyWithNewPrefix src dest p rp) K = mapLookup dest K := by
  induction src with
  | nil => intro dest _; rfl
  | cons e rest ih =>
    intro dest hne
    rw [copyWithNewPrefix_cons, ih _ (fun e' he' => hne e' (List.mem_cons_of_mem e he'))]
    unfold copyStep
    by_cases hp : goHasPrefix e.1 p
    · rw [if_pos hp]
      exact mapLookup_set_ne dest _ e.2 K (Ne.symm (hne e (List.mem_cons_self e rest) hp))
    · rw [if_neg hp]

theorem copyWithNewPrefix_lookup_hit (src : GoMap) (p rp k v : String) :
    ∀ dest : GoMap, KeysNodup src → (k, v) ∈ src → goHasPrefix k p = true →
      mapLookup (copyWithNewPrefix src dest p rp) (renameKey p rp k) = some v := by
  induction src with
  | nil =>
    intro dest _ h _
    simp at h
  | cons e rest ih =>
    intro dest hn hmem hp
    obtain ⟨k₀, v₀⟩ := e
    obtain ⟨hn1, hn2⟩ := keysNodup_cons k₀ v₀ rest hn
    rcases List.mem_cons.mp hmem with h | h
    · obtain ⟨rfl, rfl⟩ := Prod.mk.injEq .. ▸ h
      rw [copyWithNewPrefix_cons]
      rw [copyWithNewPrefix_lookup_of_ne rest p rp _ _ ?hforall]
      case hforall =>
        intro e' he' hp' heq
        have hk : e'.1 = k := renameKey_inj p rp e'.1 k hp' hp heq
        exact hn1 (hk ▸ List.mem_map_of_mem Prod.fst he')
      unfold copyStep
      rw [if_pos hp, mapLookup_set_self]
    · rw [copyWithNewPrefix_cons]
      exact ih _ hn2 h hp

theorem copyWithNewPrefix_isSome_mono (src : GoMap) (p rp K : String) :
    ∀ dest : GoMap, (mapLookup dest K).isSome →
      (mapLookup (copyWithNewPrefix src dest p rp) K).isSome := by
  induction src with
  | nil => intro dest h; exact h
  | cons e rest ih =>
    intro dest h
    rw [copyWithNewPrefix_cons]
    apply ih
    unfold copyStep
    by_cases hp : goHasPrefix e.1 p
    · rw [if_pos hp]
      exact mapLookup_isSome_set dest _ e.2 K h
    · rwa [if_neg hp]

/-! ### Small string and list helpers -/

theorem string_length_eq_zero_iff (s : String) : s.length = 0 ↔ s = "" := by
  constructor
  · intro h
    apply String.ext
    have hd : s.data.length = 0 := h
    simpa using List.length_eq_zero.mp hd
  · rintro rfl
    rfl

theorem goHasPrefix_empty (k : String) : goHasPrefix k "" = true := by
  unfold goHasPrefix
  have h : ("" : String).data = [] := rfl
  rw [h]
  exact (isPrefixOf_iff_append [] k.data).mpr ⟨k.data, rfl⟩

theorem goHasPrefix_of_length_zero (k p : String) (h : p.length = 0) :
    goHasPrefix k p = true := by
  rw [(string_length_eq_zero_iff p).mp h]
  exact goHasPrefix_empty k

theorem goHasPrefix_refl (k : String) : goHasPrefix k k = true := by
  unfold goHasPrefix
  exact (isPrefixOf_iff_append k.data k.data).mpr ⟨[], (List.append_nil k.data).symm⟩

theorem any_value_of_mem (m : GoMap) (k v : String) (h : (k, v) ∈ m) :
    (m.any (fun e => e.2 == v)) = true :=
  List.any_eq_true.mpr ⟨(k, v), h, by simp⟩

theorem filter_isSome_partition (M pre : GoMap) :
    (M.filter (fun e => (mapLookup pre e.1).isSome)).length +
      (M.filter (fun e => (mapLookup pre e.1).isNone)).length = M.length := by
  induction M with
  | nil => rfl
  | cons e rest ih =>
    cases h : mapLookup pre e.1 <;> simp [List.filter_cons, h] <;> omega

theorem renameKey_empty_p (rp k : String) (hrp : rp ≠ "") :
    renameKey "" rp k = rp ++ k := by
  have hne : ("" : String) ≠ rp := fun h => hrp h.symm
  unfold renameKey
  rw [if_pos hne]
  apply String.ext
  rw [goReplace1_data_of_hasPrefix k "" rp (goHasPrefix_empty k), String.data_append]
  rfl

/-! ### Helper equivalences for the existence queries -/

theorem ite_false_true (c : Prop) [Decidable c] : (if c then false else true) = true ↔ ¬c := by
  by_cases h : c <;> simp [h]

theorem filterByPrefix_goLen_zero_iff (slot : Option GoMap) (key : String) :
    goLen (filterByPrefix slot key) = 0 ↔
      ∀ e ∈ slot.getD [], goHasPrefix e.1 key = false := by
  unfold filterByPrefix goLen
  by_cases hlen : key.length = 0
  · rw [if_pos hlen]
    constructor
    · intro h e he
      rw [List.length_eq_zero] at h
      rw [h] at he
      simp at he
    · intro h
      rw [List.length_eq_zero]
      by_contra hne
      obtain ⟨e, he⟩ := List.exists_mem_of_ne_nil _ hne
      have htrue := goHasPrefix_of_length_zero e.1 key hlen
      rw [h e he] at htrue
      simp at htrue
  · rw [if_neg hlen]
    have h0 : (some (filterFold (slot.getD []) key)).getD [] =
        filterFold (slot.getD []) key := rfl
    rw [h0, List.length_eq_zero, filterFold_eq_nil_iff]

/-! ### Claim C7 -/

/-- C7: `AddAnnotations` and `AddLabels` return an error exactly when the
object is nil, and that error's message is exactly "object cannot be nil";
every non-nil object (with any entry map, including the empty one) gives
no error. -/
theorem C7_add_error_iff_nil (obj : Option ObjectData) (entries : GoMap) :
    (AddAnnotations obj entries).2 =
        (if obj.isNone then some "object cannot be nil" else none) ∧
    (AddLabels obj entries).2 =
        (if obj.isNone then some "object cannot be nil" else none) := by
  cases obj <;> simp [AddAnnotations, AddLabels]

/-! ### Claim C9 -/

/-- C9: for a non-nil object, `HasAnnotation` (here `HasAnnotationKey`) and
`HasLabel` queried with the empty key return true exactly when the
corresponding map is non-empty: the empty key is a prefix of every stored
key, so the check degenerates to a non-emptiness test. -/
theorem C9_has_empty_key_iff_nonempty (o : ObjectData) :
    (HasAnnotationKey (some o) "" = true ↔ o.annotations.getD [] ≠ []) ∧
    (HasLabel (some o) "" = true ↔ o.labels.getD [] ≠ []) := by
  have hlen : ("" : String).length = 0 := rfl
  constructor
  · unfold HasAnnotationKey GetAnnotationsWithPrefix filterByPrefix goLen
    simp [hlen, ite_false_true, List.length_eq_zero]
  · unfold HasLabel GetLabelsWithPrefix filterByPrefix goLen
    simp [hlen, ite_false_true, List.length_eq_zero]

/-! ### Claim C3 -/

/-- C3 as frozen is false: `HasAnnotation` matches by prefix, not exactly.
The object stores only the key "ab", yet the query for "a" answers true,
though no stored key equals "a". -/
theorem C3_counterexample :
    HasAnnotationKey (some ⟨some [("ab", "v")], none⟩) "a" = true ∧
    (¬ ∃ e ∈ [(("ab" : String), ("v" : String))], e.1 = "a") := by
  constructor
  · decide
  · decide

/-- C3 amended: `HasAnnotation` (here `HasAnnotationKey`) and `HasLabel`
return true iff the object is non-nil and at least one stored key **starts
with** the query key (prefix match, not exact match); on a nil object they
return false, and no error reaches the caller (the functions only return a
boolean). -/
theorem C3_amended_has_iff_prefix_match (obj : Option ObjectData) (key : String) :
    (HasAnnotationKey obj key = true ↔
      ∃ o, obj = some o ∧ ∃ e ∈ o.annotations.getD [], goHasPrefix e.1 key = true) ∧
    (HasLabel obj key = true ↔
      ∃ o, obj = some o ∧ ∃ e ∈ o.labels.getD [], goHasPrefix e.1 key = true) := by
  cases obj with
  | none =>
    constructor
    · simp [HasAnnotationKey, GetAnnotationsWithPrefix]
    · simp [HasLabel, GetLabelsWithPrefix]
  | some o =>
    constructor
    · simp only [HasAnnotationKey, GetAnnotationsWithPrefix, Option.isSome_none,
        false_or, ite_false_true, filterByPrefix_goLen_zero_iff]
      simp [Option.some.injEq]
    · simp only [HasLabel, GetLabelsWithPrefix, Option.isSome_none,
        false_or, ite_false_true, filterByPrefix_goLen_zero_iff]
      simp [Option.some.injEq]

/-! ### Claim C2 -/

theorem hasAnnotationWithValue_some (o' : ObjectData) (key value : String) :
    HasAnnotationWithValue (some o') key value =
      ((filterByPrefix o'.annotations key).getD []).any (fun e => e.2 == value) := rfl

theorem addAnnotationKV_some (o : ObjectData) (key value : String) :
    ∃ o', AddAnnotationKV (some o) key value = some o' ∧
      o'.annotations = some (addEntries [(key, value)] (o.annotations.getD [])) := by
  cases ha : o.annotations with
  | none =>
    refine ⟨{ o with annotations := some (addEntries [(key, value)] []) }, ?_, by simp⟩
    simp [AddAnnotationKV, AddAnnotations, ha]
    rfl
  | some m =>
    refine ⟨{ o with annotations := some (addEntries [(key, value)] m) }, ?_, by simp⟩
    simp [AddAnnotationKV, AddAnnotations, ha]
    rfl

/-- C2 as frozen is false: `AddAnnotation` merges first-write-wins, so when
the key already holds a different value the new value is not stored and
`HasAnnotationWithValue` at the new value answers false; it is also false
for a nil object, on which `AddAnnotation` is a no-op. -/
theorem C2_counterexample :
    HasAnnotationWithValue
        (AddAnnotationKV (some ⟨some [("a", "x")], none⟩) "a" "y") "a" "y" = false ∧
    HasAnnotationWithValue (AddAnnotationKV none "a" "y") "a" "y" = false := by
  constructor
  · decide
  · decide

/-- C2 amended: for a non-nil object whose annotations map (unique keys)
does not already bind `k` to a different value, calling `AddAnnotation`
(here `AddAnnotationKV`) with `k`, `v` makes
`HasAnnotationWithValue (·, k, v)` true. -/
theorem C2_amended_add_then_hasValue (o : ObjectData) (k v : String)
    (hn : KeysNodup (o.annotations.getD []))
    (h : mapLookup (o.annotations.getD []) k = none ∨
         mapLookup (o.annotations.getD []) k = some v) :
    HasAnnotationWithValue (AddAnnotationKV (some o) k v) k v = true := by
  obtain ⟨o', ho', hanns⟩ := addAnnotationKV_some o k v
  rw [ho', hasAnnotationWithValue_some, hanns]
  set res := addEntries [(k, v)] (o.annotations.getD []) with hres
  have hlook : mapLookup res k = some v := by
    rw [hres, addEntries_lookup]
    rcases h with h | h <;> simp [h, mapLookup, Option.or]
  have hnres : KeysNodup res := keysNodup_addEntries _ _ hn
  unfold filterByPrefix
  by_cases hlen : k.length = 0
  · rw [if_pos hlen]
    exact any_value_of_mem res k v (mapLookup_mem res k v hlook)
  · rw [if_neg hlen]
    simp only [Option.getD_some]
    rw [filterFold_eq_filter res k hnres]
    have hlf : mapLookup (res.filter (fun e => goHasPrefix e.1 k)) k = some v := by
      rw [mapLookup_filter res k k, goHasPrefix_refl]
      simpa using hlook
    exact any_value_of_mem _ k v (mapLookup_mem _ k v hlf)

/-- Witness for the amended C2 at a concrete input. -/
theorem C2_amended_witness :
    HasAnnotationWithValue
        (AddAnnotationKV (some ⟨some [("b", "w")], none⟩) "a" "y") "a" "y" = true :=
  C2_amended_add_then_hasValue ⟨some [("b", "w")], none⟩ "a" "y"
    (by unfold KeysNodup; decide) (Or.inl (by decide))

/-! ### Claim C5 -/

/-- C5 as frozen is false: with the empty prefix and a nil annotations
slot there are no matches, yet `GetAnnotationsWithPrefix` returns the nil
original map (with no error), not a non-nil empty map. -/
theorem C5_counterexample :
    GetAnnotationsWithPrefix (some ⟨none, none⟩) "" = (none, none) := by
  decide

/-- C5 amended: for a non-nil object `GetAnnotationsWithPrefix` /
`GetLabelsWithPrefix` return no error; with the empty prefix they return
the object's original (possibly nil) map itself; with a non-empty prefix
they return a map that is never nil and binds exactly the keys of the
object's map that start with the prefix, values unchanged.  For a nil
object they return an empty map and the nil-object error. -/
theorem C5_amended_get_with_prefix (o : ObjectData) (p : String)
    (hna : KeysNodup (o.annotations.getD []))
    (hnl : KeysNodup (o.labels.getD [])) :
    (GetAnnotationsWithPrefix (some o) p).2 = none ∧
    (GetLabelsWithPrefix (some o) p).2 = none ∧
    (p = "" →
      (GetAnnotationsWithPrefix (some o) p).1 = o.annotations ∧
      (GetLabelsWithPrefix (some o) p).1 = o.labels) ∧
    (p ≠ "" →
      ((GetAnnotationsWithPrefix (some o) p).1.isSome ∧
        ∀ K, mapLookup ((GetAnnotationsWithPrefix (some o) p).1.getD []) K =
          (if goHasPrefix K p then mapLookup (o.annotations.getD []) K else none)) ∧
      ((GetLabelsWithPrefix (some o) p).1.isSome ∧
        ∀ K, mapLookup ((GetLabelsWithPrefix (some o) p).1.getD []) K =
          (if goHasPrefix K p then mapLookup (o.labels.getD []) K else none))) ∧
    GetAnnotationsWithPrefix none p = (some [], some "object cannot be nil") ∧
    GetLabelsWithPrefix none p = (some [], some "object cannot be nil") := by
  have hga : (GetAnnotationsWithPrefix (some o) p).1 = filterByPrefix o.annotations p := rfl
  have hgl : (GetLabelsWithPrefix (some o) p).1 = filterByPrefix o.labels p := rfl
  refine ⟨rfl, rfl, ?_, ?_, rfl, rfl⟩
  · rintro rfl
    have hlen : ("" : String).length = 0 := rfl
    rw [hga, hgl]
    unfold filterByPrefix
    rw [if_pos hlen, if_pos hlen]
    exact ⟨rfl, rfl⟩
  · intro hp
    have hlen : ¬ p.length = 0 := fun h => hp ((string_length_eq_zero_iff p).mp h)
    rw [hga, hgl]
    unfold filterByPrefix
    rw [if_neg hlen, if_neg hlen]
    refine ⟨⟨rfl, ?_⟩, ⟨rfl, ?_⟩⟩
    · intro K
      simp only [Option.getD_some]
      rw [filterFold_eq_filter _ p hna, mapLookup_filter]
    · intro K
      simp only [Option.getD_some]
      rw [filterFold_eq_filter _ p hnl, mapLookup_filter]

/-- Witness for the amended C5 at a concrete input. -/
theorem C5_amended_witness :
    (GetAnnotationsWithPrefix (some ⟨some [("ab", "v")], none⟩) "a").1.isSome := by
  have h := C5_amended_get_with_prefix ⟨some [("ab", "v")], none⟩ "a"
    (by unfold KeysNodup; decide) (by unfold KeysNodup; decide)
  exact ((h.2.2.2.1 (by decide)).1).1

/-! ### Claim C1 -/

/-- C1 as frozen is false: the prefix-copy path overwrites.  The
destination object bound "a" to "2" before the call; after
`CopyAnnotationsByPrefix` it binds "a" to "1". -/
theorem C1_counterexample :
    CopyAnnotationsByPrefix (some ⟨some [("a", "1")], none⟩)
        (some ⟨some [("a", "2")], none⟩) "a" "a" =
      some (some ⟨some [("a", "1")], none⟩) := by
  decide

/-- C1 amended: the add operations never remove or overwrite an existing
binding (first-write-wins), and the copy operations never remove a key —
every key present in the destination before the call is still present
after — but the copy path may overwrite the value at such a key. -/
theorem C1_amended_no_remove (o s d : ObjectData) (entries : GoMap)
    (p rp K k v : String) :
    (mapLookup (annsOf (some o)) k = some v →
      mapLookup (annsOf (AddAnnotations (some o) entries).1) k = some v) ∧
    (mapLookup (labsOf (some o)) k = some v →
      mapLookup (labsOf (AddLabels (some o) entries).1) k = some v) ∧
    ((mapLookup (annsOf (some d)) K).isSome →
      (mapLookup (annsOf ((CopyAnnotationsByPrefix (some s) (some d) p rp).getD none))
        K).isSome) ∧
    ((mapLookup (labsOf (some d)) K).isSome →
      (mapLookup (labsOf ((CopyLabelsByPrefix (some s) (some d) p rp).getD none))
        K).isSome) := by
  refine ⟨?_, ?_, ?_, ?_⟩
  · intro h
    cases ha : o.annotations with
    | none => simp [annsOf, ha, mapLookup] at h
    | some m =>
      simp only [annsOf, ha, Option.getD_some] at h
      simp only [AddAnnotations, annsOf, ha, Option.isNone_some, Bool.false_eq_true,
        if_false, Option.getD_some]
      rw [addEntries_lookup]
      simp [h, Option.or]
  · intro h
    cases hl : o.labels with
    | none => simp [labsOf, hl, mapLookup] at h
    | some m =>
      simp only [labsOf, hl, Option.getD_some] at h
      simp only [AddLabels, labsOf, hl, Option.isNone_some, Bool.false_eq_true,
        if_false, Option.getD_some]
      rw [addEntries_lookup]
      simp [h, Option.or]
  · intro h
    cases hs : s.annotations with
    | none =>
      simp only [CopyAnnotationsByPrefix, hs]
      simpa [annsOf] using h
    | some srcm =>
      cases hd : d.annotations with
      | none => simp [annsOf, hd, mapLookup] at h
      | some dm =>
        simp only [CopyAnnotationsByPrefix, hs, hd, Option.isNone_some,
          Bool.false_eq_true, if_false, Option.getD_some, annsOf]
        exact copyWithNewPrefix_isSome_mono srcm p rp K dm
          (by simpa [annsOf, hd] using h)
  · intro h
    cases hs : s.labels with
    | none =>
      simp only [CopyLabelsByPrefix, hs]
      simpa [labsOf] using h
    | some srcm =>
      cases hd : d.labels with
      | none => simp [labsOf, hd, mapLookup] at h
      | some dm =>
        simp only [CopyLabelsByPrefix, hs, hd, Option.isNone_some,
          Bool.false_eq_true, if_false, Option.getD_some, labsOf]
        exact copyWithNewPrefix_isSome_mono srcm p rp K dm
          (by simpa [labsOf, hd] using h)

/-- Witness for the amended C1 at a concrete input. -/
theorem C1_amended_witness :
    mapLookup (annsOf (AddAnnotations (some ⟨some [("a", "2")], none⟩)
      [("a", "1")]).1) "a" = some "2" :=
  (C1_amended_no_remove ⟨some [("a", "2")], none⟩ ⟨none, none⟩ ⟨none, none⟩
    [("a", "1")] "" "" "" "a" "2").1 (by decide)

/-! ### Claim C4 -/

/-- C4 as frozen is false: the copy functions perform no nil-object check.
Called with a nil source object they dereference it and fault (the outer
`none` of the embedding), instead of completing without fault. -/
theorem C4_counterexample :
    CopyLabelsByPrefix none (some ⟨none, some [("q", "c")]⟩) "" "" = none ∧
    CopyAnnotationsByPrefix none (some ⟨some [("q", "c")], none⟩) "" "" = none :=
  ⟨rfl, rfl⟩

/-- C4 amended: the copy functions have no nil-object protection — a nil
source object faults, and so does a nil destination object reached when
the source's relevant slot is non-nil; the no-op degradation applies to a
nil source *slot* of the relevant kind, in which case the call completes
leaving the destination object (and its maps) unchanged, whatever the
other slot holds. -/
theorem C4_amended_copy_nil (dest : Option ObjectData) (s : ObjectData)
    (p rp : String) :
    CopyLabelsByPrefix none dest p rp = none ∧
    CopyAnnotationsByPrefix none dest p rp = none ∧
    (s.labels ≠ none → CopyLabelsByPrefix (some s) none p rp = none) ∧
    (s.annotations ≠ none → CopyAnnotationsByPrefix (some s) none p rp = none) ∧
    (s.labels = none → CopyLabelsByPrefix (some s) dest p rp = some dest) ∧
    (s.annotations = none → CopyAnnotationsByPrefix (some s) dest p rp = some dest) := by
  refine ⟨rfl, rfl, ?_, ?_, ?_, ?_⟩
  · intro h
    cases hs : s.labels with
    | none => exact absurd hs h
    | some m => simp [CopyLabelsByPrefix, hs]
  · intro h
    cases hs : s.annotations with
    | none => exact absurd hs h
    | some m => simp [CopyAnnotationsByPrefix, hs]
  · intro h
    simp [CopyLabelsByPrefix, h]
  · intro h
    simp [CopyAnnotationsByPrefix, h]

/-- Witness for the amended C4 at a concrete input: the source object has
a non-nil annotations slot and a nil labels slot, so the annotation copy
into a nil destination faults while the label copy is a completing
no-op. -/
theorem C4_amended_witness :
    CopyAnnotationsByPrefix (some ⟨some [("a", "1")], none⟩) none "x" "y" = none ∧
    CopyLabelsByPrefix (some ⟨some [("a", "1")], none⟩)
        (some ⟨none, some [("q", "c")]⟩) "x" "y" =
      some (some ⟨none, some [("q", "c")]⟩) := by
  have h := C4_amended_copy_nil (some ⟨none, some [("q", "c")]⟩)
    ⟨some [("a", "1")], none⟩ "x" "y"
  exact ⟨h.2.2.2.1 (by decide), h.2.2.2.2.1 rfl⟩

/-! ### Claim C8 -/

/-- C8: merging a map M into a non-nil object whose slot holds
pre-existing entries keeps every pre-existing binding with its value, adds
every key of M not already present with its value from M, and the
resulting size is |pre| + |M| - |overlap|. -/
theorem C8_add_merge_counts (o o' : ObjectData) (preA preL M : GoMap) (k v : String)
    (ha : o.annotations = some preA) (hl : o'.labels = some preL)
    (hnM : KeysNodup M) :
    (mapLookup preA k = some v →
      mapLookup (annsOf (AddAnnotations (some o) M).1) k = some v) ∧
    (mapLookup preA k = none → mapLookup M k = some v →
      mapLookup (annsOf (AddAnnotations (some o) M).1) k = some v) ∧
    (annsOf (AddAnnotations (some o) M).1).length =
      preA.length + M.length -
        (M.filter (fun e => (mapLookup preA e.1).isSome)).length ∧
    (mapLookup preL k = some v →
      mapLookup (labsOf (AddLabels (some o') M).1) k = some v) ∧
    (mapLookup preL k = none → mapLookup M k = some v →
      mapLookup (labsOf (AddLabels (some o') M).1) k = some v) ∧
    (labsOf (AddLabels (some o') M).1).length =
      preL.length + M.length -
        (M.filter (fun e => (mapLookup preL e.1).isSome)).length := by
  have hra : annsOf (AddAnnotations (some o) M).1 = addEntries M preA := by
    simp [AddAnnotations, annsOf, ha]
  have hrl : labsOf (AddLabels (some o') M).1 = addEntries M preL := by
    simp [AddLabels, labsOf, hl]
  refine ⟨?_, ?_, ?_, ?_, ?_, ?_⟩
  · intro h
    rw [hra, addEntries_lookup]
    simp [h, Option.or]
  · intro h hm
    rw [hra, addEntries_lookup]
    simp [h, hm, Option.or]
  · rw [hra, addEntries_length M preA hnM]
    have hpart := filter_isSome_partition M preA
    omega
  · intro h
    rw [hrl, addEntries_lookup]
    simp [h, Option.or]
  · intro h hm
    rw [hrl, addEntries_lookup]
    simp [h, hm, Option.or]
  · rw [hrl, addEntries_length M preL hnM]
    have hpart := filter_isSome_partition M preL
    omega

/-- Witness for C8 at a concrete input: two pre-existing entries, two
merged entries, one overlapping key, final size three. -/
theorem C8_witness :
    (annsOf (AddAnnotations (some ⟨some [("a", "1"), ("b", "2")], none⟩)
      [("b", "9"), ("c", "3")]).1).length = 3 := by
  have h := C8_add_merge_counts ⟨some [("a", "1"), ("b", "2")], none⟩ ⟨none, some []⟩
    [("a", "1"), ("b", "2")] [] [("b", "9"), ("c", "3")] "a" "1" rfl rfl
    (by unfold KeysNodup; decide)
  rw [h.2.2.1]
  decide

/-! ### Claims C6 and C10 -/

theorem copyAnnotationsByPrefix_result (s d : ObjectData) (srcm : GoMap) (p rp : String)
    (hs : s.annotations = some srcm) :
    annsOf ((CopyAnnotationsByPrefix (some s) (some d) p rp).getD none) =
      copyWithNewPrefix srcm (d.annotations.getD []) p rp := by
  cases hd : d.annotations with
  | none => simp [CopyAnnotationsByPrefix, hs, hd, annsOf]
  | some dm => simp [CopyAnnotationsByPrefix, hs, hd, annsOf]

theorem copyLabelsByPrefix_result (s d : ObjectData) (srcm : GoMap) (p rp : String)
    (hs : s.labels = some srcm) :
    labsOf ((CopyLabelsByPrefix (some s) (some d) p rp).getD none) =
      copyWithNewPrefix srcm (d.labels.getD []) p rp := by
  cases hd : d.labels with
  | none => simp [CopyLabelsByPrefix, hs, hd, labsOf]
  | some dm => simp [CopyLabelsByPrefix, hs, hd, labsOf]

/-- C6: behaviour of CopyAnnotationsByPrefix / CopyLabelsByPrefix on
non-nil objects: a nil source slot makes the call a no-op returning the
destination unchanged; otherwise the call completes, the destination slot
ends up non-nil, every source pair whose key starts with `p` lands under
the renamed key (identical when `p = rp`) with its value, overwriting any
previous binding there, and a key that is no rename of a matching source
key keeps its previous (possibly absent) binding — in particular
non-matching source entries are not copied. -/
theorem C6_copy_semantics (s d : ObjectData) (p rp K k v : String)
    (hns : KeysNodup (s.annotations.getD []))
    (hnl : KeysNodup (s.labels.getD [])) :
    (s.annotations = none → CopyAnnotationsByPrefix (some s) (some d) p rp = some (some d)) ∧
    (s.labels = none → CopyLabelsByPrefix (some s) (some d) p rp = some (some d)) ∧
    (CopyAnnotationsByPrefix (some s) (some d) p rp).isSome ∧
    (CopyLabelsByPrefix (some s) (some d) p rp).isSome ∧
    (s.annotations.isSome →
      ((((CopyAnnotationsByPrefix (some s) (some d) p rp).getD none).getD
        ⟨none, none⟩).annotations).isSome) ∧
    (s.labels.isSome →
      ((((CopyLabelsByPrefix (some s) (some d) p rp).getD none).getD
        ⟨none, none⟩).labels).isSome) ∧
    (p = rp → renameKey p rp k = k) ∧
    ((k, v) ∈ s.annotations.getD [] → goHasPrefix k p = true →
      mapLookup (annsOf ((CopyAnnotationsByPrefix (some s) (some d) p rp).getD none))
        (renameKey p rp k) = some v) ∧
    ((k, v) ∈ s.labels.getD [] → goHasPrefix k p = true →
      mapLookup (labsOf ((CopyLabelsByPrefix (some s) (some d) p rp).getD none))
        (renameKey p rp k) = some v) ∧
    ((∀ e ∈ s.annotations.getD [], goHasPrefix e.1 p = true → renameKey p rp e.1 ≠ K) →
      mapLookup (annsOf ((CopyAnnotationsByPrefix (some s) (some d) p rp).getD none)) K =
        mapLookup (annsOf (some d)) K) ∧
    ((∀ e ∈ s.labels.getD [], goHasPrefix e.1 p = true → renameKey p rp e.1 ≠ K) →
      mapLookup (labsOf ((CopyLabelsByPrefix (some s) (some d) p rp).getD none)) K =
        mapLookup (labsOf (some d)) K) := by
  refine ⟨?_, ?_, ?_, ?_, ?_, ?_, ?_, ?_, ?_, ?_, ?_⟩
  · intro hs
    simp [CopyAnnotationsByPrefix, hs]
  · intro hs
    simp [CopyLabelsByPrefix, hs]
  · cases hs : s.annotations with
    | none => simp [CopyAnnotationsByPrefix, hs]
    | some srcm => cases hd : d.annotations <;> simp [CopyAnnotationsByPrefix, hs, hd]
  · cases hs : s.labels with
    | none => simp [CopyLabelsByPrefix, hs]
    | some srcm => cases hd : d.labels <;> simp [CopyLabelsByPrefix, hs, hd]
  · intro hsome
    obtain ⟨srcm, hs⟩ := Option.isSome_iff_exists.mp hsome
    cases hd : d.annotations <;> simp [CopyAnnotationsByPrefix, hs, hd]
  · intro hsome
    obtain ⟨srcm, hs⟩ := Option.isSome_iff_exists.mp hsome
    cases hd : d.labels <;> simp [CopyLabelsByPrefix, hs, hd]
  · intro hpr
    simp [renameKey, hpr]
  · intro hmem hp
    cases hs : s.annotations with
    | none => simp [hs] at hmem
    | some srcm =>
      rw [copyAnnotationsByPrefix_result s d srcm p rp hs]
      rw [hs] at hns hmem
      exact copyWithNewPrefix_lookup_hit srcm p rp k v _ (by simpa using hns)
        (by simpa using hmem) hp
  · intro hmem hp
    cases hs : s.labels with
    | none => simp [hs] at hmem
    | some srcm =>
      rw [copyLabelsByPrefix_result s d srcm p rp hs]
      rw [hs] at hnl hmem
      exact copyWithNewPrefix_lookup_hit srcm p rp k v _ (by simpa using hnl)
        (by simpa using hmem) hp
  · intro hall
    cases hs : s.annotations with
    | none => simp [CopyAnnotationsByPrefix, hs, annsOf]
    | some srcm =>
      rw [copyAnnotationsByPrefix_result s d srcm p rp hs]
      rw [hs] at hall
      exact copyWithNewPrefix_lookup_of_ne srcm p rp K _ (by simpa using hall)
  · intro hall
    cases hs : s.labels with
    | none => simp [CopyLabelsByPrefix, hs, labsOf]
    | some srcm =>
      rw [copyLabelsByPrefix_result s d srcm p rp hs]
      rw [hs] at hall
      exact copyWithNewPrefix_lookup_of_ne srcm p rp K _ (by simpa using hall)

/-- Witness for C6 at a concrete input (the spec's own §8.5 vector). -/
theorem C6_witness :
    mapLookup (annsOf ((CopyAnnotationsByPrefix
        (some ⟨some [("foo", "bar"), ("foz", "qux")], none⟩)
        (some ⟨some [("quux", "corge")], none⟩) "fo" "ba").getD none))
      (renameKey "fo" "ba" "foo") = some "bar" := by
  have h := C6_copy_semantics ⟨some [("foo", "bar"), ("foz", "qux")], none⟩
    ⟨some [("quux", "corge")], none⟩ "fo" "ba" "quux" "foo" "bar"
    (by unfold KeysNodup; decide) (by unfold KeysNodup; decide)
  exact h.2.2.2.2.2.2.2.1 (by decide) (by decide)

/-- C10: with an empty prefix and a non-empty replacement, every source
entry is copied and lands under the replacement prepended to its key
(the first, zero-width, occurrence of the empty prefix is at the front),
overwriting whatever the destination held at that key. -/
theorem C10_empty_prefix_prepend (s d : ObjectData) (rp k v : String)
    (hrp : rp ≠ "")
    (hns : KeysNodup (s.annotations.getD []))
    (hnl : KeysNodup (s.labels.getD [])) :
    ((k, v) ∈ s.annotations.getD [] →
      mapLookup (annsOf ((CopyAnnotationsByPrefix (some s) (some d) "" rp).getD none))
        (rp ++ k) = some v) ∧
    ((k, v) ∈ s.labels.getD [] →
      mapLookup (labsOf ((CopyLabelsByPrefix (some s) (some d) "" rp).getD none))
        (rp ++ k) = some v) := by
  have hren := renameKey_empty_p rp k hrp
  constructor
  · intro hmem
    cases hs : s.annotations with
    | none => simp [hs] at hmem
    | some srcm =>
      rw [copyAnnotationsByPrefix_result s d srcm "" rp hs, ← hren]
      rw [hs] at hns hmem
      exact copyWithNewPrefix_lookup_hit srcm "" rp k v _ (by simpa using hns)
        (by simpa using hmem) (goHasPrefix_empty k)
  · intro hmem
    cases hs : s.labels with
    | none => simp [hs] at hmem
    | some srcm =>
      rw [copyLabelsByPrefix_result s d srcm "" rp hs, ← hren]
      rw [hs] at hnl hmem
      exact copyWithNewPrefix_lookup_hit srcm "" rp k v _ (by simpa using hnl)
        (by simpa using hmem) (goHasPrefix_empty k)

/-- Witness for C10 at a concrete input. -/
theorem C10_witness :
    mapLookup (annsOf ((CopyAnnotationsByPrefix (some ⟨some [("k", "v")], none⟩)
        (some ⟨some [("prek", "old")], none⟩) "" "pre").getD none)) ("pre" ++ "k") =
      some "v" :=
  (C10_empty_prefix_prepend ⟨some [("k", "v")], none⟩ ⟨some [("prek", "old")], none⟩
    "pre" "k" "v" (by decide) (by unfold KeysNodup; decide)
    (by unfold KeysNodup; decide)).1 (by decide)
